import Mathlib

/-!
Shallow embedding of the cfdkim DKIM verification library (`src/canonicalization.rs`
and `src/lib.rs`) together with theorems checking the natural-language
specification against it.

Bytes are modelled as `Nat` (the value of the `u8`), byte strings as `List Nat`.
Rust strings that only undergo ASCII-relevant operations (header field names,
tag names/values) are modelled as Lean `String`s or as byte lists, as noted at
each definition.
-/

set_option maxRecDepth 20000
set_option autoImplicit false

namespace Cfdkim

/-! ## Byte utilities (`bytes` module)

The repository's `bytes.rs` is not part of the provided sources; only its
callers in `canonicalization.rs` are.  The three helpers are modelled from the
spec, §4.A: "(i) replace every occurrence of byte `x` with byte `y` in place;
(ii) find the first offset of a byte substring; (iii) return a new buffer with
every occurrence of a byte substring replaced by another (possibly empty)." -/

/-- Modelled from the spec: `bytes::replace` — replace every occurrence of
byte `x` with byte `y`. -/
def bytesReplace (x y : Nat) (v : List Nat) : List Nat :=
  v.map (fun c => if c = x then y else c)

/-- Boolean test that `pat` is a prefix of `v`. -/
def hasPfx : List Nat → List Nat → Bool
  | [], _ => true
  | _ :: _, [] => false
  | p :: ps, c :: cs => p == c && hasPfx ps cs

/-- Rust `ends_with` on byte slices: `suf` is a suffix of `v`. -/
def endsWith (v suf : List Nat) : Bool :=
  hasPfx suf.reverse v.reverse

/-- Modelled from the spec: `bytes::find` — first offset of the byte substring
`pat` inside `v`, if any. -/
def bytesFind (pat : List Nat) : List Nat → Option Nat
  | [] => if hasPfx pat [] then some 0 else none
  | c :: cs => if hasPfx pat (c :: cs) then some 0 else (bytesFind pat cs).map (· + 1)

/-- Modelled from the spec: `bytes::replace_slice`, specialised to the single
use in `canonicalization.rs`: delete every occurrence of the substring
`"\r\n"` (bytes `13, 10`). -/
def replaceCrlfEmpty : List Nat → List Nat
  | [] => []
  | 13 :: 10 :: rest => replaceCrlfEmpty rest
  | c :: rest => c :: replaceCrlfEmpty rest

/-! ## Canonicalization (`canonicalization.rs`) -/

/-- The `Type` enum of `canonicalization.rs` (renamed: `Type` is reserved in
Lean). -/
inductive CanonType where
  | simple
  | relaxed
deriving DecidableEq, Repr

/-- The `ContentTransferEncoding` enum. -/
inductive ContentTransferEncoding where
  | base64
  | quotedPrintable
  | sevenBit
  | eightBit
  | binary
deriving DecidableEq, Repr

/-- Rust `str::to_lowercase`, modelled character-wise (`Char.toLower`; the
inputs the library lowercases — tag values, domains, encodings — are
ASCII). -/
def strToLower (s : String) : String :=
  String.mk (s.data.map Char.toLower)

/-- Split a character list at every occurrence of `sep` (helper for
`strSplit`). -/
def splitCharsAux (sep : Char) : List Char → List Char → List (List Char)
  | acc, [] => [acc.reverse]
  | acc, c :: cs =>
    if c = sep then acc.reverse :: splitCharsAux sep [] cs
    else splitCharsAux sep (c :: acc) cs

/-- Rust `str::split` on a single separator character. -/
def strSplit (sep : Char) (s : String) : List String :=
  (splitCharsAux sep [] s.data).map String.mk

/-- `get_content_transfer_encoding` from `canonicalization.rs`. -/
def get_content_transfer_encoding (value : Option String) : ContentTransferEncoding :=
  match value with
  | some value =>
    match strToLower value with
    | "base64" => .base64
    | "quoted-printable" => .quotedPrintable
    | "7bit" => .sevenBit
    | "8bit" => .eightBit
    | "binary" => .binary
    | _ => .sevenBit
  | none => .sevenBit

/-- The stateful `retain` closure of `canonicalize_body_relaxed` (and of
`canonicalize_header_value_relaxed`): keep a SP (byte 32) only when the
previous byte seen was not a SP, keep every other byte.  `prev` is the
`previous` flag of the Rust closure. -/
def collapseAux (prev : Bool) : List Nat → List Nat
  | [] => []
  | c :: cs =>
    if c = 32 then
      if prev then collapseAux true cs
      else 32 :: collapseAux true cs
    else c :: collapseAux false cs

/-- One fuel-indexed unfolding of the loop
`while body.ends_with(b"\r\n\r\n") { body truncated by 2 }` shared by
`canonicalize_body_simple` (slice truncation) and `canonicalize_body_relaxed`
(two `remove(len-1)` calls).  Each iteration shortens the list by two, so
`v.length` is always enough fuel. -/
def stripCrlfGo : Nat → List Nat → List Nat
  | 0, v => v
  | n + 1, v =>
    if endsWith v [13, 10, 13, 10] then stripCrlfGo n (v.dropLast.dropLast) else v

/-- The trailing-`CRLF` stripping loop, run to completion. -/
def stripTrailingCrlfs (v : List Nat) : List Nat :=
  stripCrlfGo v.length v

/-- `canonicalize_body_simple` from `canonicalization.rs`. -/
def canonicalize_body_simple (body : List Nat) : List Nat :=
  if body = [] then [13, 10]
  else stripTrailingCrlfs body

/-- One fuel-indexed unfolding of the loop
`while let Some(idx) = bytes::find(&body, b" \r\n") { body.remove(idx) }` of
`canonicalize_body_relaxed`.  Each iteration removes one byte, so `v.length`
is always enough fuel. -/
def stripSpCrlfGo : Nat → List Nat → List Nat
  | 0, v => v
  | n + 1, v =>
    match bytesFind [32, 13, 10] v with
    | none => v
    | some idx => stripSpCrlfGo n (v.eraseIdx idx)

/-- The SP-before-`CRLF` removal loop, run to completion. -/
def stripSpCrlf (v : List Nat) : List Nat :=
  stripSpCrlfGo v.length v

/-- `canonicalize_body_relaxed` from `canonicalization.rs`: replace TABs by
SPs, collapse SP runs, remove SPs found immediately before a `CRLF`, strip
trailing empty lines, and finally append a `CRLF` when the body is non-empty
and does not already end with one. -/
def canonicalize_body_relaxed (body : List Nat) : List Nat :=
  let b1 := bytesReplace 9 32 body
  let b2 := collapseAux false b1
  let b3 := stripSpCrlf b2
  let b4 := stripTrailingCrlfs b3
  if b4 = [] then b4
  else if endsWith b4 [13, 10] then b4
  else b4 ++ [13, 10]

/-- `canonicalize_header_simple` from `canonicalization.rs`: emit
`<key>: <value>CRLF` (byte 58 is `':'`, byte 32 is `' '`). -/
def canonicalize_header_simple (key value : List Nat) : List Nat :=
  key ++ [58, 32] ++ value ++ [13, 10]

/-- ASCII lowercase on bytes, modelling Rust `str::to_lowercase` restricted to
ASCII input (header field names; no claim exercises non-ASCII names). -/
def asciiLower (v : List Nat) : List Nat :=
  v.map (fun c => if 65 ≤ c ∧ c ≤ 90 then c + 32 else c)

/-- Whether a byte is ASCII whitespace in the sense of Rust
`char::is_whitespace` restricted to ASCII: TAB, LF, VT, FF, CR or SP. -/
def isWsByte (c : Nat) : Bool :=
  c == 9 || c == 10 || c == 11 || c == 12 || c == 13 || c == 32

/-- Rust `str::trim_end` on an ASCII byte string: drop trailing whitespace. -/
def trimEndWs (v : List Nat) : List Nat :=
  ((v.reverse.dropWhile fun c => isWsByte c).reverse)

/-- The loop `while value.ends_with(b" ") { value.remove(value.len()-1) }`:
drop trailing SP bytes. -/
def stripTrailSp : List Nat → List Nat
  | [] => []
  | c :: cs =>
    if stripTrailSp cs = [] ∧ c = 32 then []
    else c :: stripTrailSp cs

/-- The loop `while value.starts_with(b" ") { value.remove(0) }`: drop leading
SP bytes. -/
def stripLeadSp (v : List Nat) : List Nat :=
  v.dropWhile (fun c => c == 32)

/-- `canonicalize_header_value_relaxed` from `canonicalization.rs`: replace
TABs with SPs, delete every `CRLF`, drop trailing then leading SPs, then
collapse SP runs. -/
def canonicalize_header_value_relaxed (value : List Nat) : List Nat :=
  collapseAux false (stripLeadSp (stripTrailSp (replaceCrlfEmpty (bytesReplace 9 32 value))))

/-- `canonicalize_header_relaxed` from `canonicalization.rs`: lowercase and
right-trim the field name, canonicalize the value, and emit
`<name>:<value>CRLF`. -/
def canonicalize_header_relaxed (key value : List Nat) : List Nat :=
  trimEndWs (asciiLower key) ++ [58] ++ canonicalize_header_value_relaxed value ++ [13, 10]

/-- Second definition for the refinement claim about relaxed header values,
following the spec's wording and order (§4.C relaxed header, steps 2–4):
"Replace every TAB in the value with SP; unfold by deleting any CRLF
occurrences. Collapse runs of SP into a single SP. Strip leading and trailing
SP from the value." -/
def canonicalize_header_value_relaxed_spec (value : List Nat) : List Nat :=
  stripLeadSp (stripTrailSp (collapseAux false (replaceCrlfEmpty (bytesReplace 9 32 value))))

/-- Modelled from the spec (§6, wire format): a received header line is
`<name>:<value>` — the name, a colon, and the raw value bytes, with no
separator inserted by the receiver. -/
def receivedHeader (key value : List Nat) : List Nat :=
  key ++ [58] ++ value

/-! ## Errors (`errors.rs`)

`errors.rs` is not part of the provided sources.  Modelled from the spec:
the error taxonomy of §7. -/

/-- Modelled from the spec: the `DKIMError` taxonomy of §7 (the variants the
claims exercise; payloads are the human-readable strings of the source). -/
inductive DKIMError where
  | SignatureSyntaxError (msg : String)
  | SignatureMissingRequiredTag (name : String)
  | IncompatibleVersion
  | DomainMismatch
  | FromFieldNotSigned
  | UnsupportedQueryMethod
  | UnsupportedHashAlgorithm (a : String)
  | UnsupportedCanonicalizationType (c : String)
  | KeyUnavailable (msg : String)
  | BodyHashDidNotVerify
  | SignatureDidNotVerify
  | SignatureExpired
  | UnknownInternalError (msg : String)
deriving DecidableEq, Repr

/-! ## Tags and headers (`parser.rs`, `header.rs`)

`parser.rs` and `header.rs` are not part of the provided sources.  The `Tag`
structure, the required-tag list and the tag accessors are modelled from the
spec (§3, §4.B); the textual tag-list parser itself is abstracted: functions
below receive the parser's output, an `Except` of an ordered `(name, value)`
list. -/

/-- Modelled from the spec: a `Tag` is a name/value pair (§3). -/
structure Tag where
  name : String
  value : String
deriving DecidableEq, Repr

/-- `DKIMHeader` from `header.rs` (modelled from the spec, §3): the ordered
tag map plus the raw textual value. -/
structure DKIMHeader where
  tags : List Tag
  raw_bytes : String
deriving DecidableEq, Repr

/-- `IndexMap::insert`: replace the value in place if the name is present,
otherwise append. -/
def insertTag (m : List Tag) (t : Tag) : List Tag :=
  if m.any (fun u => u.name == t.name) then
    m.map (fun u => if u.name == t.name then { u with value := t.value } else u)
  else m ++ [t]

/-- Build the `IndexMap` of `validate_header` / `get_header_unchecked` from
the parsed tag sequence. -/
def buildTagMap (tags : List Tag) : List Tag :=
  tags.foldl insertTag []

/-- Modelled from the spec: `DKIMHeader::get_tag` — the value mapped to a tag
name, if present. -/
def getTag (h : DKIMHeader) (name : String) : Option String :=
  (h.tags.find? (fun t => t.name == name)).map (fun t => t.value)

/-- Modelled from the spec: `DKIMHeader::get_required_tag` — the value of a
tag that the required-tag check has already guaranteed to exist (total here,
defaulting to the empty string, which no caller reaches on validated
headers). -/
def get_required_tag (h : DKIMHeader) (name : String) : String :=
  (getTag h name).getD ""

/-- `REQUIRED_TAGS` from `header.rs` (modelled from the spec, §3: required
tags `v, a, b, bh, d, h, s`). -/
def REQUIRED_TAGS : List String := ["v", "a", "b", "bh", "d", "h", "s"]

/-- Rust `str::ends_with` (substring suffix test) on Lean strings. -/
def strEndsWith (s suf : String) : Bool :=
  s.data.reverse.take suf.data.length == suf.data.reverse

/-- First required tag missing from the parsed tag list, if any — the
presence check of `validate_header`, which returns the first member of
`REQUIRED_TAGS` not among the tag names. -/
def firstMissingRequired (tags : List Tag) : Option String :=
  REQUIRED_TAGS.find? (fun r => !(tags.any (fun t => t.name == r)))

/-- The checks of `validate_header` after the `i=`/`d=` one: `h=` must
contain `from` case-insensitively, and `q=` must be `dns/txt` when
present. -/
def validateTail (header : DKIMHeader) : Except DKIMError DKIMHeader :=
  let hs := (strSplit ':' (get_required_tag header "h")).map strToLower
  if !(hs.contains "from") then
    throw DKIMError.FromFieldNotSigned
  else
    match getTag header "q" with
    | some q => if q ≠ "dns/txt" then throw DKIMError.UnsupportedQueryMethod
                else pure header
    | none => pure header

/-- `validate_header` from `lib.rs`.  The first argument is the raw header
text, the second the outcome of `parser::tag_list` on it (the textual parser
is not in the provided sources; a parse failure carries its message).  The
checks, in source order: tag-list syntax, required tags, version, `i=`/`d=`
alignment (a naive `ends_with` on the whole `i=` value), `from` in `h=`, and
the query method.  The feature-gated `x=` expiration check is compiled out in
the default configuration and is not modelled. -/
def validate_header (value : String) (parsed : Except String (List Tag)) :
    Except DKIMError DKIMHeader := do
  let tags ← parsed.mapError (fun e => DKIMError.SignatureSyntaxError e)
  match firstMissingRequired tags with
  | some r => throw (DKIMError.SignatureMissingRequiredTag r)
  | none =>
    let header : DKIMHeader := { tags := buildTagMap tags, raw_bytes := value }
    if get_required_tag header "v" ≠ "1" then
      throw DKIMError.IncompatibleVersion
    else
      match getTag header "i" with
      | some user =>
        if !strEndsWith user (get_required_tag header "d") then
          throw DKIMError.DomainMismatch
        else validateTail header
      | none => validateTail header

/-- `get_header_unchecked` from `lib.rs`: build the tag map with no
validation beyond tag-list syntax. -/
def get_header_unchecked (value : String) (parsed : Except String (List Tag)) :
    Except DKIMError DKIMHeader := do
  let tags ← parsed.mapError (fun e => DKIMError.SignatureSyntaxError e)
  pure { tags := buildTagMap tags, raw_bytes := value }

/-- Modelled from the spec: the `HashAlgorithm` of §3. -/
inductive HashAlgo where
  | rsaSha1
  | rsaSha256
  | ed25519Sha256
deriving DecidableEq, Repr

/-- Modelled from the spec: `parser::parse_hash_algo` — the `a=` textual
forms of §3. -/
def parse_hash_algo (a : String) : Except DKIMError HashAlgo :=
  if a = "rsa-sha1" then .ok .rsaSha1
  else if a = "rsa-sha256" then .ok .rsaSha256
  else if a = "ed25519-sha256" then .ok .ed25519Sha256
  else .error (.UnsupportedHashAlgorithm a)

/-- Modelled from the spec: one half of the `c=` tag (§3). -/
def parseCanonHalf (s : String) : Except DKIMError CanonType :=
  if s = "simple" then .ok .simple
  else if s = "relaxed" then .ok .relaxed
  else .error (.UnsupportedCanonicalizationType s)

/-- Modelled from the spec: `parser::parse_canonicalization` — `c=` encodes
`header/body`, both defaulting to `simple` when the tag is absent, the body
half defaulting to `simple` when missing (§3). -/
def parse_canonicalization : Option String → Except DKIMError (CanonType × CanonType)
  | none => .ok (.simple, .simple)
  | some s =>
    match strSplit '/' s with
    | [h] => do
      let hc ← parseCanonHalf h
      pure (hc, .simple)
    | [h, b] => do
      let hc ← parseCanonHalf h
      let bc ← parseCanonHalf b
      pure (hc, bc)
    | _ => .error (.UnsupportedCanonicalizationType s)

/-- Modelled from the spec: the signature outcome of §3. -/
inductive DKIMResult where
  | pass (domain : String) (header_canon body_canon : CanonType)
  | fail (reason : DKIMError) (domain : String)
  | neutral (domain : String)
deriving DecidableEq, Repr

/-- One `DKIM-Signature` header of an email, as handed to the verification
loops: its raw text together with the outcome of the (external) tag-list
parser on it. -/
structure SigHeader where
  raw : String
  parsed : Except String (List Tag)

/-- The per-signature work of `verify_email_header` (DNS retrieval, hashing
and cryptography live in modules outside the provided sources), abstracted as
a function from the validated header to either the canonicalization pair of a
successful verification or a `DKIMError`. -/
abbrev HeaderVerifier := DKIMHeader → Except DKIMError (CanonType × CanonType)

/-- The signature-enumeration loop of `verify_email_with_resolver`, with
`lastErr` the `last_error` accumulator: validation failures and per-signature
verification failures are recorded and the next header is tried; headers
whose `d=` does not case-insensitively match `from_domain` are skipped with
nothing recorded; the first success returns `pass`. -/
def verifyResolverGo (vh : HeaderVerifier) (from_domain : String) :
    List SigHeader → Option DKIMError → DKIMResult
  | [], some e => .fail e from_domain
  | [], none => .neutral from_domain
  | h :: rest, lastErr =>
    match validate_header h.raw h.parsed with
    | .error err => verifyResolverGo vh from_domain rest (some err)
    | .ok dkim_header =>
      let signing_domain := get_required_tag dkim_header "d"
      if strToLower signing_domain ≠ strToLower from_domain then
        verifyResolverGo vh from_domain rest lastErr
      else
        match vh dkim_header with
        | .ok (hc, bc) => .pass signing_domain hc bc
        | .error err => verifyResolverGo vh from_domain rest (some err)

/-- `verify_email_with_resolver` from `lib.rs`, over the abstracted
per-signature verifier.  The `Except` layer mirrors the Rust
`Result<DKIMResult, DKIMError>`: this function itself always returns `Ok`. -/
def verify_email_with_resolver (vh : HeaderVerifier) (from_domain : String)
    (headers : List SigHeader) : Except DKIMError DKIMResult :=
  .ok (verifyResolverGo vh from_domain headers none)

/-- The external computations `verify_email_with_key` calls per signature,
abstracted: header hashing, body hashing (its result already base64-encoded,
as compared against `bh=`), base64 decoding of `b=`, and the cryptographic
check.  All of these live in modules outside the provided sources. -/
structure KeyOracles where
  headersHash : DKIMHeader → CanonType → HashAlgo → Except DKIMError (List Nat)
  bodyHash : CanonType → Option String → HashAlgo → Except DKIMError String
  b64decode : String → Except String (List Nat)
  sigVerify : HashAlgo → List Nat → List Nat → Except DKIMError Bool

/-- The per-signature tail of the `verify_email_with_key` loop, after
validation and domain matching: parse `c=` and `a=`, compute the header hash,
compare the body hash against `bh=` unless `ignore_body_hash`, decode `b=`,
and run the cryptographic check.  Every failure is returned as an `error` —
in the source each of these steps uses `?` or `return Err(..)`, so the error
propagates out of the whole function. -/
def verifyKeyStep (o : KeyOracles) (dkim_header : DKIMHeader) (ignore_body_hash : Bool) :
    Except DKIMError (String × CanonType × CanonType) := do
  let (header_canon_type, body_canon_type) ← parse_canonicalization (getTag dkim_header "c")
  let hash_algo ← parse_hash_algo (get_required_tag dkim_header "a")
  let header_hash ← o.headersHash dkim_header header_canon_type hash_algo
  if !ignore_body_hash then
    let computed_body_hash ← o.bodyHash body_canon_type (getTag dkim_header "l") hash_algo
    if get_required_tag dkim_header "bh" ≠ computed_body_hash then
      throw DKIMError.BodyHashDidNotVerify
  let signature ← (o.b64decode (get_required_tag dkim_header "b")).mapError
    (fun e => DKIMError.SignatureSyntaxError ("failed to decode signature: " ++ e))
  let verified ← o.sigVerify hash_algo header_hash signature
  if !verified then
    throw DKIMError.SignatureDidNotVerify
  pure (get_required_tag dkim_header "d", header_canon_type, body_canon_type)

/-- The signature-enumeration loop of `verify_email_with_key`: validation
failures are recorded and the loop continues; non-matching domains are
skipped; but any failure of `verifyKeyStep` is propagated as the function's
top-level error, aborting the enumeration. -/
def verifyKeyGo (o : KeyOracles) (from_domain : String) (ignore_body_hash : Bool) :
    List SigHeader → Option DKIMError → Except DKIMError DKIMResult
  | [], some e => .ok (.fail e from_domain)
  | [], none => .ok (.neutral from_domain)
  | h :: rest, lastErr =>
    match validate_header h.raw h.parsed with
    | .error err => verifyKeyGo o from_domain ignore_body_hash rest (some err)
    | .ok dkim_header =>
      if strToLower (get_required_tag dkim_header "d") ≠ strToLower from_domain then
        verifyKeyGo o from_domain ignore_body_hash rest lastErr
      else
        match verifyKeyStep o dkim_header ignore_body_hash with
        | .error e => .error e
        | .ok (d, hc, bc) => .ok (.pass d hc bc)

/-- `verify_email_with_key` from `lib.rs`, over the abstracted oracles.  The
line-ending pre-normalisation and re-parse of the raw message happen in the
external MIME parser and do not change which `DKIM-Signature` headers are
enumerated; the embedding receives the header list directly. -/
def verify_email_with_key (o : KeyOracles) (from_domain : String)
    (headers : List SigHeader) (ignore_body_hash : Bool) : Except DKIMError DKIMResult :=
  verifyKeyGo o from_domain ignore_body_hash headers none

/-! ## MIME body extraction and `canonicalize_signed_email` -/

/-- A subpart of a parsed email, as `get_canonicalized_body` consumes it:
its content type and the outcome of `get_body_raw().ok()` (the decoded body,
`none` when decoding failed). -/
structure MailPart where
  mimetype : String
  body_raw : Option (List Nat)

/-- A parsed email, as the external `mailparse` crate presents it to
`get_canonicalized_body`: the content type, the headers, the subparts, and
the decoded body `get_body_raw()`.  `raw_body` is the spec-side notion of the
message body (§6: "the raw body bytes delimited from the headers by the first
empty line"), carried for comparison. -/
structure ParsedMail where
  mimetype : String
  headers : List (String × String)
  subparts : List MailPart
  get_body_raw : List Nat
  raw_body : List Nat

/-- The value of the mutable `html_body` / `plain_text_body` slot of
`get_canonicalized_body` after the subpart loop: the `get_body_raw().ok()` of
the last subpart with the given content type (each matching subpart
overwrites the slot). -/
def lastBody (ty : String) : List MailPart → Option (List Nat)
  | [] => none
  | p :: rest =>
    if rest.any (fun q => q.mimetype = ty) ∨ p.mimetype ≠ ty then lastBody ty rest
    else p.body_raw

/-- `get_canonicalized_body` from `canonicalization.rs`: for
`multipart/alternative`, the last `text/html` subpart's decoded body if any,
else the last `text/plain` subpart's; for `text/plain` with a
`quoted-printable` transfer encoding, the decoded body; empty otherwise. -/
def get_canonicalized_body (email : ParsedMail) : List Nat :=
  if email.mimetype = "multipart/alternative" then
    let html_body := lastBody "text/html" email.subparts
    let plain_text_body := lastBody "text/plain" email.subparts
    match html_body with
    | some b => b
    | none =>
      match plain_text_body with
      | some b => b
      | none => []
  else if email.mimetype = "text/plain" then
    let cte := get_content_transfer_encoding
      ((email.headers.find? (fun h => h.1 == "Content-Transfer-Encoding")).map (fun h => h.2))
    match cte with
    | .quotedPrintable => email.get_body_raw
    | _ => []
  else []

/-- `canonicalize_signed_email` from `lib.rs`, over the abstracted header
canonicalizer (`hash::canonicalize_header_email` lives outside the provided
sources) and base64 decoder.  `dkim_value`/`dkim_parsed` are the first
`DKIM-Signature` header of the email and its parse.  Returns
`(canonicalized_header, canonicalized_body, signature_bytes)`. -/
def canonicalize_signed_email
    (hdrCanon : CanonType → String → DKIMHeader → ParsedMail → Except DKIMError (List Nat))
    (b64decode : String → Except String (List Nat))
    (email : ParsedMail) (dkim_value : String) (dkim_parsed : Except String (List Tag)) :
    Except DKIMError (List Nat × List Nat × List Nat) := do
  let dkim_header ← get_header_unchecked dkim_value dkim_parsed
  let signature_raw ← (b64decode (get_required_tag dkim_header "b")).mapError
    (fun e => DKIMError.SignatureSyntaxError ("failed to decode signature: " ++ e))
  let (header_canonicalization_type, _) ← parse_canonicalization (getTag dkim_header "c")
  let canonicalized_body := get_canonicalized_body email
  let canonicalized_header ←
    hdrCanon header_canonicalization_type (get_required_tag dkim_header "h") dkim_header email
  pure (canonicalized_header, canonicalized_body, signature_raw)

/-- The body canonicalization the spec attributes to `canonicalize_signed_email`
(claim side): the message body under the RFC 6376 algorithm selected by the
signature's `c=` tag. -/
def specSelectedBodyCanon (c : Option String) (raw_body : List Nat) :
    Except DKIMError (List Nat) := do
  let (_, body_canon_type) ← parse_canonicalization c
  match body_canon_type with
  | .simple => pure (canonicalize_body_simple raw_body)
  | .relaxed => pure (canonicalize_body_relaxed raw_body)

/-! ## Declarative description of the `verify_email_with_resolver` enumeration

Used to state the enumeration policy (spec §7 / §4.F step 2) without
repeating the loop's accumulator structure. -/

/-- What one `DKIM-Signature` header contributes to the enumeration: a
successful verification, a recorded error, or a silent skip. -/
inductive SigStep where
  | success (domain : String) (header_canon body_canon : CanonType)
  | recorded (e : DKIMError)
  | skip
deriving DecidableEq, Repr

/-- Classify one header of the email the way the
`verify_email_with_resolver` loop treats it. -/
def stepOf (vh : HeaderVerifier) (from_domain : String) (h : SigHeader) : SigStep :=
  match validate_header h.raw h.parsed with
  | .error e => .recorded e
  | .ok dkim_header =>
    let d := get_required_tag dkim_header "d"
    if strToLower d ≠ strToLower from_domain then .skip
    else
      match vh dkim_header with
      | .ok (hc, bc) => .success d hc bc
      | .error e => .recorded e

/-- The first successful step, if any. -/
def firstSuccess : List SigStep → Option (String × CanonType × CanonType)
  | [] => none
  | .success d hc bc :: _ => some (d, hc, bc)
  | .recorded _ :: rest => firstSuccess rest
  | .skip :: rest => firstSuccess rest

/-- The last recorded error, starting from `acc`. -/
def lastRecordedFrom (acc : Option DKIMError) (steps : List SigStep) : Option DKIMError :=
  steps.foldl
    (fun a s =>
      match s with
      | .recorded e => some e
      | _ => a)
    acc

/-- The outcome the spec ascribes to the enumeration: `pass` on the first
success, else `fail` with the last recorded error, else `neutral`. -/
def resolverOutcome (from_domain : String) (steps : List SigStep)
    (acc : Option DKIMError) : DKIMResult :=
  match firstSuccess steps with
  | some (d, hc, bc) => .pass d hc bc
  | none =>
    match lastRecordedFrom acc steps with
    | some e => .fail e from_domain
    | none => .neutral from_domain

/-! ## Concrete fixtures used by counterexamples and witnesses -/

/-- Tag-list with `i=foo@notexample.net`, `d=example.net`: the `i=` domain
part is outside `d=`, yet the naive suffix check accepts it. -/
def c5tags : List Tag :=
  [⟨"v", "1"⟩, ⟨"a", "rsa-sha256"⟩, ⟨"d", "example.net"⟩, ⟨"s", "sel"⟩,
   ⟨"h", "from"⟩, ⟨"bh", "x"⟩, ⟨"b", "y"⟩, ⟨"i", "foo@notexample.net"⟩]

/-- The domain part of an address: what follows the last `@` (the whole
string when there is no `@`).  Claim-side notion for the `i=`/`d=` check. -/
def domainPart (s : String) : String :=
  ((strSplit '@' s).getLast?).getD s

/-- Claim-side `i=` within `d=`: the domain part of `i=` equals `d=` or is a
sub-label of it (ends with `"." ++ d`). -/
def iWithinD (i d : String) : Bool :=
  domainPart i == d || strEndsWith (domainPart i) ("." ++ d)

/-- A tag-list that fails validation (`v=3`) and carries `d=example.net`. -/
def badVersionTags : List Tag :=
  [⟨"v", "3"⟩, ⟨"a", "rsa-sha256"⟩, ⟨"d", "example.net"⟩, ⟨"s", "sel"⟩,
   ⟨"h", "from"⟩, ⟨"bh", "x"⟩, ⟨"b", "y"⟩]

/-- A valid tag-list carrying `d=example.net`. -/
def goodNetTags : List Tag :=
  [⟨"v", "1"⟩, ⟨"a", "rsa-sha256"⟩, ⟨"d", "example.net"⟩, ⟨"s", "sel"⟩,
   ⟨"h", "from"⟩, ⟨"bh", "x"⟩, ⟨"b", "y"⟩]

/-- A header verifier that rejects everything (concrete instance for closed
statements; the theorems it witnesses hold for every verifier). -/
def vhReject : HeaderVerifier := fun _ => .error .SignatureDidNotVerify

/-- Concrete oracles for `verify_email_with_key`: hashing always succeeds,
the body hash is `"GOOD"`, base64 decoding succeeds, and the cryptographic
check accepts. -/
def oAccept : KeyOracles where
  headersHash := fun _ _ _ => .ok []
  bodyHash := fun _ _ _ => .ok "GOOD"
  b64decode := fun _ => .ok []
  sigVerify := fun _ _ _ => .ok true

/-- A valid matching signature whose `bh=` disagrees with the computed body
hash of `oAccept`. -/
def bhBadTags : List Tag :=
  [⟨"v", "1"⟩, ⟨"a", "rsa-sha256"⟩, ⟨"d", "example.net"⟩, ⟨"s", "s1"⟩,
   ⟨"h", "from"⟩, ⟨"bh", "BAD"⟩, ⟨"b", "AAAA"⟩]

/-- A valid matching signature that verifies under `oAccept`. -/
def bhGoodTags : List Tag :=
  [⟨"v", "1"⟩, ⟨"a", "rsa-sha256"⟩, ⟨"d", "example.net"⟩, ⟨"s", "s2"⟩,
   ⟨"h", "from"⟩, ⟨"bh", "GOOD"⟩, ⟨"b", "AAAA"⟩]

/-- A valid tag-list with no `c=` tag (both canonicalizations default to
`simple`) and an empty `b=`. -/
def c4tags : List Tag :=
  [⟨"v", "1"⟩, ⟨"a", "rsa-sha256"⟩, ⟨"d", "example.net"⟩, ⟨"s", "sel"⟩,
   ⟨"h", "from"⟩, ⟨"bh", "x"⟩, ⟨"b", ""⟩]

/-- A plain-text email (7bit transfer encoding) whose body is `"Hi.\r\n"`. -/
def emailHi : ParsedMail :=
  { mimetype := "text/plain", headers := [], subparts := [],
    get_body_raw := [72, 105, 46, 13, 10], raw_body := [72, 105, 46, 13, 10] }

/-- A header canonicalizer oracle that returns an empty canonical block
(concrete instance for closed statements). -/
def hdrCanonEmpty : CanonType → String → DKIMHeader → ParsedMail → Except DKIMError (List Nat) :=
  fun _ _ _ _ => .ok []

/-- No TAB byte occurs in `v`. -/
def NoTab (v : List Nat) : Prop := ∀ c ∈ v, c ≠ 9

/-- No two consecutive SP bytes occur in `v`. -/
def NoTwoSp (v : List Nat) : Prop :=
  List.Chain' (fun a b => ¬(a = 32 ∧ b = 32)) v

/-! ## Lemmas about the byte utilities -/

lemma hasPfx_iff (p : List Nat) : ∀ v, hasPfx p v = true ↔ ∃ t, v = p ++ t := by
  induction p with
  | nil =>
    intro v
    simp [hasPfx]
  | cons x xs ih =>
    intro v
    cases v with
    | nil =>
      simp [hasPfx]
    | cons c cs =>
      simp only [hasPfx, Bool.and_eq_true, beq_iff_eq, ih cs]
      constructor
      · rintro ⟨rfl, t, rfl⟩
        exact ⟨t, rfl⟩
      · rintro ⟨t, h⟩
        cases h
        exact ⟨rfl, t, rfl⟩

lemma endsWith_iff (v s : List Nat) : endsWith v s = true ↔ ∃ w, v = w ++ s := by
  unfold endsWith
  rw [hasPfx_iff]
  constructor
  · rintro ⟨t, ht⟩
    refine ⟨t.reverse, ?_⟩
    have : v.reverse.reverse = (s.reverse ++ t).reverse := by rw [ht]
    simpa [List.reverse_append] using this
  · rintro ⟨w, rfl⟩
    exact ⟨w.reverse, by simp [List.reverse_append]⟩

lemma endsWith_false_iff (v s : List Nat) : endsWith v s = false ↔ ∀ w, v ≠ w ++ s := by
  rw [← Bool.not_eq_true, endsWith_iff]
  push_neg
  rfl

lemma bytesFind_none_iff (pat : List Nat) :
    ∀ v, bytesFind pat v = none ↔ ∀ a b, v ≠ a ++ pat ++ b := by
  intro v
  induction v with
  | nil =>
    simp only [bytesFind]
    by_cases hp : hasPfx pat [] = true
    · have hpat : pat = [] := by
        obtain ⟨t, ht⟩ := (hasPfx_iff pat []).mp hp
        exact (List.append_eq_nil.mp ht.symm).1
      subst hpat
      refine iff_of_false (by simp [hp]) ?_
      intro h
      exact h [] [] rfl
    · refine iff_of_true (by simp [hp]) ?_
      intro a b hab
      apply hp
      have hpat : pat = [] := by
        have h1 := List.append_eq_nil.mp hab.symm
        exact (List.append_eq_nil.mp h1.1).2
      subst hpat
      rfl
  | cons c cs ih =>
    simp only [bytesFind]
    by_cases hp : hasPfx pat (c :: cs) = true
    · obtain ⟨t, ht⟩ := (hasPfx_iff pat (c :: cs)).mp hp
      simp only [hp, if_true]
      constructor
      · intro h
        exact absurd h (by simp)
      · intro h
        exact absurd ht (by simpa using h [] t)
    · simp only [hp, if_false, Bool.false_eq_true, Option.map_eq_none', ih]
      constructor
      · intro h a b hab
        cases a with
        | nil =>
          exact hp ((hasPfx_iff pat (c :: cs)).mpr ⟨b, by simpa using hab⟩)
        | cons a0 a' =>
          obtain ⟨-, h2⟩ : c = a0 ∧ cs = a' ++ (pat ++ b) := by simpa using hab
          exact h a' b (by rw [List.append_assoc]; exact h2)
      · intro h a b hab
        exact h (c :: a) b (by simp [hab])

lemma bytesFind_some (pat : List Nat) :
    ∀ v i, bytesFind pat v = some i → ∃ a b, v = a ++ pat ++ b ∧ a.length = i := by
  intro v
  induction v with
  | nil =>
    intro i h
    simp only [bytesFind] at h
    by_cases hp : hasPfx pat [] = true
    · obtain ⟨t, ht⟩ := (hasPfx_iff pat []).mp hp
      obtain ⟨hpat, htl⟩ := List.append_eq_nil.mp ht.symm
      subst hpat
      simp only [hp, if_true, Option.some.injEq] at h
      exact ⟨[], [], by simp, by simp [h]⟩
    · simp [hp] at h
  | cons c cs ih =>
    intro i h
    simp only [bytesFind] at h
    by_cases hp : hasPfx pat (c :: cs) = true
    · obtain ⟨t, ht⟩ := (hasPfx_iff pat (c :: cs)).mp hp
      simp only [hp, if_true, Option.some.injEq] at h
      exact ⟨[], t, by simpa using ht, by simp [h]⟩
    · simp only [hp, if_false, Bool.false_eq_true, Option.map_eq_some'] at h
      obtain ⟨j, hj, rfl⟩ := h
      obtain ⟨a, b, hab, hlen⟩ := ih j hj
      exact ⟨c :: a, b, by simp [hab], by simp [hlen]⟩

lemma eraseIdx_append_cons : ∀ (a : List Nat) (c : Nat) (b : List Nat),
    (a ++ c :: b).eraseIdx a.length = a ++ b := by
  intro a
  induction a with
  | nil => intro c b; rfl
  | cons x a' ih => intro c b; simp [List.eraseIdx, ih]

lemma erase_at_occ (a b : List Nat) :
    (a ++ [32, 13, 10] ++ b).eraseIdx a.length = a ++ [13, 10] ++ b := by
  have h : a ++ [32, 13, 10] ++ b = a ++ 32 :: ([13, 10] ++ b) := by simp
  rw [h, eraseIdx_append_cons]
  simp

/-- Any property preserved by deleting the SP of an `" \r\n"` occurrence is
preserved by the `stripSpCrlfGo` loop. -/
lemma stripSpCrlfGo_inv (P : List Nat → Prop)
    (hstep : ∀ a b, P (a ++ [32, 13, 10] ++ b) → P (a ++ [13, 10] ++ b)) :
    ∀ n v, P v → P (stripSpCrlfGo n v) := by
  intro n
  induction n with
  | zero => intro v hv; exact hv
  | succ n ih =>
    intro v hv
    simp only [stripSpCrlfGo]
    cases hf : bytesFind [32, 13, 10] v with
    | none => exact hv
    | some i =>
      obtain ⟨a, b, hab, hlen⟩ := bytesFind_some _ _ _ hf
      subst hab
      subst hlen
      show P (stripSpCrlfGo n ((a ++ [32, 13, 10] ++ b).eraseIdx a.length))
      rw [erase_at_occ]
      exact ih _ (hstep a b hv)

/-- With enough fuel the `stripSpCrlfGo` loop runs to completion: no
`" \r\n"` occurrence remains. -/
lemma stripSpCrlfGo_none : ∀ n v, v.length ≤ n →
    bytesFind [32, 13, 10] (stripSpCrlfGo n v) = none := by
  intro n
  induction n with
  | zero =>
    intro v hv
    have : v = [] := List.length_eq_zero.mp (Nat.le_zero.mp hv)
    subst this
    rfl
  | succ n ih =>
    intro v hv
    simp only [stripSpCrlfGo]
    cases hf : bytesFind [32, 13, 10] v with
    | none => exact hf
    | some i =>
      obtain ⟨a, b, hab, hlen⟩ := bytesFind_some _ _ _ hf
      subst hab
      subst hlen
      show bytesFind [32, 13, 10]
        (stripSpCrlfGo n ((a ++ [32, 13, 10] ++ b).eraseIdx a.length)) = none
      rw [erase_at_occ]
      apply ih
      have := hv
      simp only [List.length_append, List.length_cons, List.length_nil] at this ⊢
      omega

lemma stripSpCrlfGo_id (n : Nat) (v : List Nat)
    (h : bytesFind [32, 13, 10] v = none) : stripSpCrlfGo n v = v := by
  cases n with
  | zero => rfl
  | succ n => simp [stripSpCrlfGo, h]

lemma stripSpCrlf_none (v : List Nat) :
    bytesFind [32, 13, 10] (stripSpCrlf v) = none :=
  stripSpCrlfGo_none v.length v le_rfl

lemma stripSpCrlf_inv (P : List Nat → Prop)
    (hstep : ∀ a b, P (a ++ [32, 13, 10] ++ b) → P (a ++ [13, 10] ++ b))
    (v : List Nat) (hv : P v) : P (stripSpCrlf v) :=
  stripSpCrlfGo_inv P hstep v.length v hv

lemma stripSpCrlf_id (v : List Nat) (h : bytesFind [32, 13, 10] v = none) :
    stripSpCrlf v = v :=
  stripSpCrlfGo_id v.length v h

lemma dropLast2_append (u : List Nat) (a b : Nat) :
    ((u ++ [a, b]).dropLast).dropLast = u := by
  rw [show u ++ [a, b] = (u ++ [a]) ++ [b] by simp, List.dropLast_concat,
    List.dropLast_concat]

/-- Any property preserved by chopping a final empty line is preserved by the
`stripCrlfGo` loop. -/
lemma stripCrlfGo_inv (P : List Nat → Prop)
    (hstep : ∀ u, P (u ++ [13, 10, 13, 10]) → P (u ++ [13, 10])) :
    ∀ n v, P v → P (stripCrlfGo n v) := by
  intro n
  induction n with
  | zero => intro v hv; exact hv
  | succ n ih =>
    intro v hv
    simp only [stripCrlfGo]
    by_cases he : endsWith v [13, 10, 13, 10] = true
    · obtain ⟨u, rfl⟩ := (endsWith_iff _ _).mp he
      simp only [he, if_true]
      rw [show u ++ [13, 10, 13, 10] = (u ++ [13, 10]) ++ [13, 10] by simp,
        dropLast2_append]
      exact ih _ (hstep u hv)
    · simp only [he, if_false]
      exact hv

/-- With enough fuel the `stripCrlfGo` loop runs to completion: the result
does not end with a double `CRLF`. -/
lemma stripCrlfGo_no4 : ∀ n v, v.length ≤ n →
    endsWith (stripCrlfGo n v) [13, 10, 13, 10] = false := by
  intro n
  induction n with
  | zero =>
    intro v hv
    have : v = [] := List.length_eq_zero.mp (Nat.le_zero.mp hv)
    subst this
    rfl
  | succ n ih =>
    intro v hv
    simp only [stripCrlfGo]
    by_cases he : endsWith v [13, 10, 13, 10] = true
    · obtain ⟨u, rfl⟩ := (endsWith_iff _ _).mp he
      simp only [he, if_true]
      rw [show u ++ [13, 10, 13, 10] = (u ++ [13, 10]) ++ [13, 10] by simp,
        dropLast2_append]
      apply ih
      have := hv
      simp only [List.length_append, List.length_cons, List.length_nil] at this ⊢
      omega
    · simp only [he, if_false]
      exact Bool.not_eq_true _ ▸ (by simpa using he)

lemma stripCrlfGo_id (n : Nat) (v : List Nat)
    (h : endsWith v [13, 10, 13, 10] = false) : stripCrlfGo n v = v := by
  cases n with
  | zero => rfl
  | succ n => simp [stripCrlfGo, h]

lemma stripTrailingCrlfs_no4 (v : List Nat) :
    endsWith (stripTrailingCrlfs v) [13, 10, 13, 10] = false :=
  stripCrlfGo_no4 v.length v le_rfl

lemma stripTrailingCrlfs_inv (P : List Nat → Prop)
    (hstep : ∀ u, P (u ++ [13, 10, 13, 10]) → P (u ++ [13, 10]))
    (v : List Nat) (hv : P v) : P (stripTrailingCrlfs v) :=
  stripCrlfGo_inv P hstep v.length v hv

lemma stripTrailingCrlfs_id (v : List Nat)
    (h : endsWith v [13, 10, 13, 10] = false) : stripTrailingCrlfs v = v :=
  stripCrlfGo_id v.length v h

/-! ## Lemmas about the SP-collapsing pass -/

lemma collapseAux_head_true : ∀ v, (collapseAux true v).head? ≠ some 32 := by
  intro v
  induction v with
  | nil => simp [collapseAux]
  | cons c cs ih =>
    by_cases hc : c = 32
    · subst hc
      simpa [collapseAux] using ih
    · simp [collapseAux, hc]

lemma collapseAux_chain : ∀ v p, NoTwoSp (collapseAux p v) := by
  intro v
  induction v with
  | nil => intro p; simp [collapseAux, NoTwoSp]
  | cons c cs ih =>
    intro p
    by_cases hc : c = 32
    · subst hc
      cases p with
      | true => simpa [collapseAux] using ih true
      | false =>
        have hres : collapseAux false (32 :: cs) = 32 :: collapseAux true cs := by
          simp [collapseAux]
        rw [hres, NoTwoSp, List.chain'_cons']
        refine ⟨?_, ih true⟩
        intro y hy
        rintro ⟨-, hy32⟩
        exact collapseAux_head_true cs (by rw [hy, hy32])
    · have hres : collapseAux p (c :: cs) = c :: collapseAux false cs := by
        simp [collapseAux, hc]
      rw [hres, NoTwoSp, List.chain'_cons']
      refine ⟨?_, ih false⟩
      intro y _
      rintro ⟨hc32, -⟩
      exact hc hc32

lemma collapseAux_id : ∀ v, NoTwoSp v →
    collapseAux false v = v ∧ (v.head? ≠ some 32 → collapseAux true v = v) := by
  intro v
  induction v with
  | nil => intro _; exact ⟨rfl, fun _ => rfl⟩
  | cons c cs ih =>
    intro h
    rw [NoTwoSp, List.chain'_cons'] at h
    obtain ⟨hhead, htail⟩ := h
    have ihcs := ih htail
    constructor
    · by_cases hc : c = 32
      · subst hc
        have hne : cs.head? ≠ some 32 := by
          intro hh
          cases hhd : cs.head? with
          | none => rw [hhd] at hh; exact Option.noConfusion hh
          | some y =>
            rw [hhd] at hh
            have hy : y = 32 := by injection hh
            exact hhead y (by rw [hhd]; rfl) ⟨rfl, hy⟩
        have hres : collapseAux false (32 :: cs) = 32 :: collapseAux true cs := by
          simp [collapseAux]
        rw [hres, ihcs.2 hne]
      · have hres : collapseAux false (c :: cs) = c :: collapseAux false cs := by
          simp [collapseAux, hc]
        rw [hres, ihcs.1]
    · intro hhd
      have hc : c ≠ 32 := by
        intro hc
        exact hhd (by simp [hc])
      have hres : collapseAux true (c :: cs) = c :: collapseAux false cs := by
        simp [collapseAux, hc]
      rw [hres, ihcs.1]

lemma collapseAux_mem : ∀ v p c, c ∈ collapseAux p v → c ∈ v := by
  intro v
  induction v with
  | nil => intro p c h; simp [collapseAux] at h
  | cons x cs ih =>
    intro p c h
    by_cases hx : x = 32
    · subst hx
      cases p with
      | true =>
        simp only [collapseAux, if_true] at h
        exact List.mem_cons_of_mem _ (ih true c h)
      | false =>
        simp only [collapseAux, if_true, if_false] at h
        rcases List.mem_cons.mp h with rfl | h
        · exact List.mem_cons_self _ _
        · exact List.mem_cons_of_mem _ (ih true c h)
    · simp only [collapseAux, hx, if_false] at h
      rcases List.mem_cons.mp h with rfl | h
      · exact List.mem_cons_self _ _
      · exact List.mem_cons_of_mem _ (ih false c h)

lemma collapseAux_ends_crlf : ∀ w p, ∃ w', collapseAux p (w ++ [13, 10]) = w' ++ [13, 10] := by
  intro w
  induction w with
  | nil =>
    intro p
    exact ⟨[], by simp [collapseAux]⟩
  | cons c w2 ih =>
    intro p
    by_cases hc : c = 32
    · subst hc
      cases p with
      | true =>
        simpa [collapseAux] using ih true
      | false =>
        obtain ⟨w', hw'⟩ := ih true
        exact ⟨32 :: w', by simp [collapseAux, hw']⟩
    · obtain ⟨w', hw'⟩ := ih false
      exact ⟨c :: w', by simp [collapseAux, hc, hw']⟩

/-! ## Preservation lemmas for the two relaxed-body loops -/

lemma noTab_bytesReplace (v : List Nat) : NoTab (bytesReplace 9 32 v) := by
  intro c hc
  rw [bytesReplace, List.mem_map] at hc
  obtain ⟨x, -, rfl⟩ := hc
  by_cases hx : x = 9 <;> simp [hx]

lemma bytesReplace_id (v : List Nat) (h : NoTab v) : bytesReplace 9 32 v = v := by
  rw [bytesReplace]
  induction v with
  | nil => rfl
  | cons c cs ih =>
    have hc : c ≠ 9 := h c (List.mem_cons_self _ _)
    simp only [List.map_cons, if_neg hc]
    rw [ih (fun x hx => h x (List.mem_cons_of_mem _ hx))]

lemma bytesReplace_append (x y : Nat) (v w : List Nat) :
    bytesReplace x y (v ++ w) = bytesReplace x y v ++ bytesReplace x y w := by
  simp [bytesReplace]

lemma noTab_erase_step (a b : List Nat) (h : NoTab (a ++ [32, 13, 10] ++ b)) :
    NoTab (a ++ [13, 10] ++ b) := by
  intro c hc
  apply h c
  simp only [List.mem_append, List.mem_cons, List.not_mem_nil, or_false] at hc ⊢
  tauto

lemma noTwoSp_erase_step (a b : List Nat) (h : NoTwoSp (a ++ [32, 13, 10] ++ b)) :
    NoTwoSp (a ++ [13, 10] ++ b) := by
  rw [NoTwoSp, List.append_assoc, List.chain'_append] at h
  obtain ⟨ha, hmid, hjoin⟩ := h
  have hmid' : List.Chain' (fun a b => ¬(a = 32 ∧ b = 32)) ([13, 10] ++ b) := by
    exact (List.chain'_cons'.mp hmid).2
  rw [NoTwoSp, List.append_assoc, List.chain'_append]
  refine ⟨ha, hmid', ?_⟩
  intro x hx y hy
  have hy13 : y = 13 := by
    have hh : ([13, 10] ++ b).head? = some 13 := rfl
    rw [hh] at hy
    have := Option.mem_def.mp hy
    injection this with h13
    exact h13.symm
  rintro ⟨-, hy32⟩
  rw [hy13] at hy32
  exact absurd hy32 (by decide)

lemma chain_crlf : List.Chain' (fun a b => ¬(a = 32 ∧ b = 32)) [13, 10] := by
  rw [List.chain'_cons]
  refine ⟨?_, List.chain'_singleton _⟩
  rintro ⟨h1, -⟩
  exact absurd h1 (by decide)

lemma noTab_trim_step (u : List Nat) (h : NoTab (u ++ [13, 10, 13, 10])) :
    NoTab (u ++ [13, 10]) := by
  intro c hc
  apply h c
  simp only [List.mem_append, List.mem_cons, List.not_mem_nil, or_false] at hc ⊢
  tauto

lemma noTwoSp_trim_step (u : List Nat) (h : NoTwoSp (u ++ [13, 10, 13, 10])) :
    NoTwoSp (u ++ [13, 10]) := by
  rw [NoTwoSp, List.chain'_append] at h ⊢
  obtain ⟨hu, -, hjoin⟩ := h
  refine ⟨hu, chain_crlf, ?_⟩
  intro x hx y hy
  exact hjoin x hx y (by simpa using hy)

lemma noOcc_trim_step (u : List Nat)
    (h : bytesFind [32, 13, 10] (u ++ [13, 10, 13, 10]) = none) :
    bytesFind [32, 13, 10] (u ++ [13, 10]) = none := by
  rw [bytesFind_none_iff] at h ⊢
  intro a b hab
  exact h a (b ++ [13, 10])
    (by rw [show u ++ [13, 10, 13, 10] = (u ++ [13, 10]) ++ [13, 10] by simp, hab]; simp)

/-- Splitting an `" \r\n"` occurrence against a `CRLF` suffix: the part after
the occurrence is empty or itself ends with `CRLF`. -/
lemma occ_vs_crlf_suffix (a b w : List Nat)
    (h : a ++ [32, 13, 10] ++ b = w ++ [13, 10]) :
    b = [] ∨ ∃ b2, b = b2 ++ [13, 10] := by
  rcases List.eq_nil_or_concat b with rfl | ⟨b1, x, hb⟩
  · exact Or.inl rfl
  rw [List.concat_eq_append] at hb
  subst hb
  rcases List.eq_nil_or_concat b1 with rfl | ⟨b2, y, hb1⟩
  · -- b = [x] : compare the final two bytes, 10 against 13 — impossible.
    exfalso
    have h' : (a ++ [32, 13]) ++ [10, x] = w ++ [13, 10] := by
      rw [← h]
      simp
    have hlen : (a ++ [32, 13]).length = w.length := by
      have hl := congrArg List.length h'
      simp only [List.length_append, List.length_cons, List.length_nil] at hl
      simp only [List.length_append, List.length_cons, List.length_nil]
      omega
    obtain ⟨-, h2⟩ := List.append_inj h' hlen
    simp at h2
  · -- b ends in two bytes y, x which must be 13, 10.
    rw [List.concat_eq_append] at hb1
    subst hb1
    have h' : (a ++ [32, 13, 10] ++ b2) ++ [y, x] = w ++ [13, 10] := by
      rw [← h]
      simp
    have hlen : (a ++ [32, 13, 10] ++ b2).length = w.length := by
      have hl := congrArg List.length h'
      simp only [List.length_append, List.length_cons, List.length_nil] at hl
      simp only [List.length_append, List.length_cons, List.length_nil]
      omega
    obtain ⟨-, h2⟩ := List.append_inj h' hlen
    injection h2 with hy h2'
    injection h2' with hx hrest
    subst hy
    subst hx
    exact Or.inr ⟨b2, by simp⟩

lemma ends_crlf_erase_step (a b : List Nat)
    (h : ∃ w, a ++ [32, 13, 10] ++ b = w ++ [13, 10]) :
    ∃ w', a ++ [13, 10] ++ b = w' ++ [13, 10] := by
  obtain ⟨w, hw⟩ := h
  rcases occ_vs_crlf_suffix a b w hw with rfl | ⟨b2, rfl⟩
  · exact ⟨a, by simp⟩
  · exact ⟨a ++ [13, 10] ++ b2, by simp⟩

/-! ## Properties of the relaxed body canonicalization pipeline -/

/-- The four invariants of the value the relaxed pipeline holds just before
the final `CRLF` append: no TAB, no double SP, no `" \r\n"` occurrence, and
no double-`CRLF` suffix. -/
lemma relaxed_pipeline_props (body b4 : List Nat)
    (hb4 : b4 = stripTrailingCrlfs (stripSpCrlf (collapseAux false (bytesReplace 9 32 body)))) :
    NoTab b4 ∧ NoTwoSp b4 ∧ bytesFind [32, 13, 10] b4 = none ∧
      endsWith b4 [13, 10, 13, 10] = false := by
  subst hb4
  set b1 := bytesReplace 9 32 body with hb1
  set b2 := collapseAux false b1 with hb2
  set b3 := stripSpCrlf b2 with hb3
  have ht1 : NoTab b1 := noTab_bytesReplace body
  have ht2 : NoTab b2 := fun c hc => ht1 c (collapseAux_mem b1 false c hc)
  have ht3 : NoTab b3 := stripSpCrlf_inv NoTab noTab_erase_step b2 ht2
  have ht4 : NoTab (stripTrailingCrlfs b3) :=
    stripTrailingCrlfs_inv NoTab noTab_trim_step b3 ht3
  have hs2 : NoTwoSp b2 := collapseAux_chain b1 false
  have hs3 : NoTwoSp b3 := stripSpCrlf_inv NoTwoSp noTwoSp_erase_step b2 hs2
  have hs4 : NoTwoSp (stripTrailingCrlfs b3) :=
    stripTrailingCrlfs_inv NoTwoSp noTwoSp_trim_step b3 hs3
  have ho3 : bytesFind [32, 13, 10] b3 = none := stripSpCrlf_none b2
  have ho4 : bytesFind [32, 13, 10] (stripTrailingCrlfs b3) = none :=
    stripTrailingCrlfs_inv (fun v => bytesFind [32, 13, 10] v = none)
      noOcc_trim_step b3 ho3
  exact ⟨ht4, hs4, ho4, stripTrailingCrlfs_no4 b3⟩

/-- When the body ends with `CRLF`, so does the value before the final
append, hence no `CRLF` is appended and the result equals it. -/
lemma relaxed_of_ends_crlf (w : List Nat) :
    ∃ w', canonicalize_body_relaxed (w ++ [13, 10]) =
      stripTrailingCrlfs (stripSpCrlf (collapseAux false (bytesReplace 9 32 (w ++ [13, 10])))) ∧
      stripTrailingCrlfs (stripSpCrlf (collapseAux false (bytesReplace 9 32 (w ++ [13, 10])))) =
        w' ++ [13, 10] := by
  have hb1 : bytesReplace 9 32 (w ++ [13, 10]) = bytesReplace 9 32 w ++ [13, 10] := by
    rw [bytesReplace_append]
    rfl
  obtain ⟨w2, hw2⟩ := collapseAux_ends_crlf (bytesReplace 9 32 w) false
  have hb2 : ∃ u, collapseAux false (bytesReplace 9 32 (w ++ [13, 10])) = u ++ [13, 10] := by
    rw [hb1]
    exact ⟨w2, hw2⟩
  have hb3 : ∃ u, stripSpCrlf (collapseAux false (bytesReplace 9 32 (w ++ [13, 10]))) =
      u ++ [13, 10] :=
    stripSpCrlf_inv (fun v => ∃ u, v = u ++ [13, 10]) ends_crlf_erase_step _ hb2
  have hb4 : ∃ u, stripTrailingCrlfs
      (stripSpCrlf (collapseAux false (bytesReplace 9 32 (w ++ [13, 10])))) = u ++ [13, 10] :=
    stripTrailingCrlfs_inv (fun v => ∃ u, v = u ++ [13, 10])
      (fun u _ => ⟨u, rfl⟩) _ hb3
  obtain ⟨u, hu⟩ := hb4
  refine ⟨u, ?_, hu⟩
  rw [canonicalize_body_relaxed]
  simp only [hu]
  have hne : u ++ [13, 10] ≠ [] := by simp
  have hend : endsWith (u ++ [13, 10]) [13, 10] = true := (endsWith_iff _ _).mpr ⟨u, rfl⟩
  simp [hne, hend]

/-- Relaxed body canonicalization is the identity on values satisfying the
four pipeline invariants that moreover end with `CRLF`. -/
lemma relaxed_id_of_props (r : List Nat) (ht : NoTab r) (hs : NoTwoSp r)
    (ho : bytesFind [32, 13, 10] r = none) (h4 : endsWith r [13, 10, 13, 10] = false)
    (hend : endsWith r [13, 10] = true) :
    canonicalize_body_relaxed r = r := by
  rw [canonicalize_body_relaxed]
  simp only [bytesReplace_id r ht, (collapseAux_id r hs).1, stripSpCrlf_id r ho,
    stripTrailingCrlfs_id r h4]
  have hne : r ≠ [] := by
    obtain ⟨w, rfl⟩ := (endsWith_iff _ _).mp hend
    simp
  simp [hne, hend]

lemma ends4_implies_ends2 (v : List Nat) (h : endsWith v [13, 10, 13, 10] = true) :
    endsWith v [13, 10] = true := by
  obtain ⟨u, rfl⟩ := (endsWith_iff _ _).mp h
  exact (endsWith_iff _ _).mpr ⟨u ++ [13, 10], by simp⟩

lemma stripTrailingCrlfs_ne_nil (v : List Nat) (h : v ≠ []) :
    stripTrailingCrlfs v ≠ [] :=
  stripTrailingCrlfs_inv (fun u => u ≠ []) (fun u _ => by simp) v h

lemma stripTrailingCrlfs_ends (w : List Nat) :
    ∃ w', stripTrailingCrlfs (w ++ [13, 10]) = w' ++ [13, 10] :=
  stripTrailingCrlfs_inv (fun v => ∃ u, v = u ++ [13, 10])
    (fun u _ => ⟨u, rfl⟩) (w ++ [13, 10]) ⟨w, rfl⟩

/-! ## Claim theorems: body canonicalization (C2, C3, C6, C10) -/

/-- Claim C2, counterexample: the code (and its own unit test) maps the body
`"\r\n"` to `"\r\n"`, not to the empty byte string as the claim states — the
trailing-empty-line loop only fires while the body ends with two `CRLF`s. -/
theorem claim_c2_counterexample :
    canonicalize_body_relaxed [13, 10] = [13, 10] ∧ ([13, 10] : List Nat) ≠ [] := by
  decide

/-- Claim C2, amended: relaxed body canonicalization maps
`"hey        \r\n"` (8 trailing spaces) to `"hey\r\n"` and the empty body to
the empty byte string, but maps the one-line body `"\r\n"` to itself. -/
theorem claim_c2_amended :
    canonicalize_body_relaxed [104, 101, 121, 32, 32, 32, 32, 32, 32, 32, 32, 13, 10] =
      [104, 101, 121, 13, 10] ∧
    canonicalize_body_relaxed [13, 10] = [13, 10] ∧
    canonicalize_body_relaxed [] = [] := by
  decide

/-- Claim C3, counterexample: `canonicalize_body_simple` of the body `"hey"`
is `"hey"`, which does not end in a `CRLF` — no `CRLF` is ever appended. -/
theorem claim_c3_counterexample :
    canonicalize_body_simple [104, 101, 121] = [104, 101, 121] ∧
    endsWith [104, 101, 121] [13, 10] = false := by
  decide

/-- Claim C3, amended: the empty body canonicalizes to exactly one `CRLF`;
a body that ends with `CRLF` has its trailing `CRLF`s stripped so the result
ends in exactly one `CRLF`; but a non-empty body that does not end with
`CRLF` is returned unchanged, with no `CRLF` appended. -/
theorem claim_c3_amended : ∀ body : List Nat,
    (body = [] → canonicalize_body_simple body = [13, 10]) ∧
    (endsWith body [13, 10] = true →
      endsWith (canonicalize_body_simple body) [13, 10] = true ∧
      endsWith (canonicalize_body_simple body) [13, 10, 13, 10] = false) ∧
    (body ≠ [] → endsWith body [13, 10] = false →
      canonicalize_body_simple body = body) := by
  intro body
  refine ⟨fun h => by rw [canonicalize_body_simple, if_pos h], ?_, ?_⟩
  · intro hend
    obtain ⟨w, rfl⟩ := (endsWith_iff _ _).mp hend
    have hne : w ++ [13, 10] ≠ [] := by simp
    rw [canonicalize_body_simple, if_neg hne]
    constructor
    · obtain ⟨w', hw'⟩ := stripTrailingCrlfs_ends w
      rw [hw']
      exact (endsWith_iff _ _).mpr ⟨w', rfl⟩
    · exact stripTrailingCrlfs_no4 _
  · intro hne hnend
    rw [canonicalize_body_simple, if_neg hne]
    apply stripTrailingCrlfs_id
    cases h4 : endsWith body [13, 10, 13, 10] with
    | false => rfl
    | true => rw [ends4_implies_ends2 body h4] at hnend; exact absurd hnend (by simp)

/-- Claim C3, witness: the amended statement applied to the body
`"h\r\n\r\n"`. -/
theorem claim_c3_witness :
    (([104, 13, 10, 13, 10] : List Nat) ≠ [] ∧
      endsWith [104, 13, 10, 13, 10] [13, 10] = true) ∧
    endsWith (canonicalize_body_simple [104, 13, 10, 13, 10]) [13, 10] = true ∧
    endsWith (canonicalize_body_simple [104, 13, 10, 13, 10]) [13, 10, 13, 10] = false :=
  ⟨⟨by decide, by decide⟩, (claim_c3_amended [104, 13, 10, 13, 10]).2.1 (by decide)⟩

/-- Claim C6, counterexample: relaxed body canonicalization is not
idempotent.  The body `" "` (one SP, no final `CRLF`) maps to `" \r\n"` — the
appended `CRLF` lands after the space — and a second application removes that
space, giving `"\r\n"`. -/
theorem claim_c6_counterexample :
    canonicalize_body_relaxed [32] = [32, 13, 10] ∧
    canonicalize_body_relaxed (canonicalize_body_relaxed [32]) = [13, 10] ∧
    canonicalize_body_relaxed (canonicalize_body_relaxed [32]) ≠
      canonicalize_body_relaxed [32] := by
  decide

/-- Claim C6, amended: simple body canonicalization is idempotent on every
body; relaxed body canonicalization is idempotent on the empty body and on
every body that ends with `CRLF` (the counterexample shows it is not
idempotent on bodies that end in whitespace without a final `CRLF`). -/
theorem claim_c6_amended :
    (∀ body : List Nat,
      canonicalize_body_simple (canonicalize_body_simple body) =
        canonicalize_body_simple body) ∧
    (∀ body : List Nat, endsWith body [13, 10] = true ∨ body = [] →
      canonicalize_body_relaxed (canonicalize_body_relaxed body) =
        canonicalize_body_relaxed body) := by
  constructor
  · intro body
    by_cases h : body = []
    · subst h
      decide
    · have hr : canonicalize_body_simple body = stripTrailingCrlfs body := by
        rw [canonicalize_body_simple, if_neg h]
      rw [hr]
      have hne' : stripTrailingCrlfs body ≠ [] := stripTrailingCrlfs_ne_nil body h
      rw [canonicalize_body_simple, if_neg hne']
      exact stripTrailingCrlfs_id _ (stripTrailingCrlfs_no4 body)
  · intro body h
    rcases h with hend | rfl
    · obtain ⟨w, rfl⟩ := (endsWith_iff _ _).mp hend
      obtain ⟨w', heq, hw'⟩ := relaxed_of_ends_crlf w
      obtain ⟨ht, hs, ho, h4⟩ := relaxed_pipeline_props (w ++ [13, 10]) _ rfl
      rw [heq]
      exact relaxed_id_of_props _ ht hs ho h4 ((endsWith_iff _ _).mpr ⟨w', hw'⟩)
    · decide

/-- Claim C6, witness: the amended statement applied to the body
`"a\r\n"`. -/
theorem claim_c6_witness :
    (endsWith [97, 13, 10] [13, 10] = true ∨ ([97, 13, 10] : List Nat) = []) ∧
    canonicalize_body_relaxed (canonicalize_body_relaxed [97, 13, 10]) =
      canonicalize_body_relaxed [97, 13, 10] :=
  ⟨Or.inl (by decide), claim_c6_amended.2 [97, 13, 10] (Or.inl (by decide))⟩

/-- Claim C10, counterexample: the output of `canonicalize_body_relaxed` can
contain a SP immediately followed by `CRLF`: the body `"a "` maps to
`"a \r\n"`, because the final `CRLF` is appended after the SP-before-`CRLF`
removal pass has already run. -/
theorem claim_c10_counterexample :
    canonicalize_body_relaxed [97, 32] = [97] ++ [32, 13, 10] ++ [] := by
  decide

/-- Claim C10, amended: the output of `canonicalize_body_relaxed` contains no
TAB, no two consecutive SPs, and does not end with two `CRLF`s; an occurrence
of SP followed by `CRLF` is possible, but only as the final three bytes of
the output (the appended `CRLF` after a trailing space). -/
theorem claim_c10_amended : ∀ body : List Nat,
    NoTab (canonicalize_body_relaxed body) ∧
    NoTwoSp (canonicalize_body_relaxed body) ∧
    (∀ a b, canonicalize_body_relaxed body = a ++ [32, 13, 10] ++ b → b = []) ∧
    endsWith (canonicalize_body_relaxed body) [13, 10, 13, 10] = false := by
  intro body
  obtain ⟨ht, hs, ho, h4⟩ := relaxed_pipeline_props body _ rfl
  set b4 := stripTrailingCrlfs (stripSpCrlf (collapseAux false (bytesReplace 9 32 body)))
    with hb4
  have hr : canonicalize_body_relaxed body =
      if b4 = [] then b4 else if endsWith b4 [13, 10] = true then b4 else b4 ++ [13, 10] :=
    rfl
  by_cases hnil : b4 = []
  · rw [hr, if_pos hnil]
    rw [hnil]
    refine ⟨fun c hc => absurd hc (List.not_mem_nil c), List.chain'_nil, ?_, by decide⟩
    intro a b hab
    exfalso
    have hl := congrArg List.length hab
    simp only [List.length_nil, List.length_append, List.length_cons] at hl
    omega
  · by_cases hend : endsWith b4 [13, 10] = true
    · rw [hr, if_neg hnil, if_pos hend]
      refine ⟨ht, hs, ?_, h4⟩
      intro a b hab
      exact absurd hab ((bytesFind_none_iff _ _).mp ho a b)
    · rw [hr, if_neg hnil, if_neg hend]
      refine ⟨?_, ?_, ?_, ?_⟩
      · intro c hc
        rcases List.mem_append.mp hc with hc | hc
        · exact ht c hc
        · rcases List.mem_cons.mp hc with rfl | hc
          · decide
          · rcases List.mem_cons.mp hc with rfl | hc
            · decide
            · exact absurd hc (List.not_mem_nil c)
      · rw [NoTwoSp, List.chain'_append]
        refine ⟨hs, chain_crlf, ?_⟩
        intro x _ y hy
        have hy13 : y = 13 := by
          simp only [List.head?_cons, Option.mem_def, Option.some.injEq] at hy
          exact hy.symm
        rintro ⟨-, hy32⟩
        rw [hy13] at hy32
        exact absurd hy32 (by decide)
      · intro a b hab
        rcases occ_vs_crlf_suffix a b b4 hab.symm with rfl | ⟨b2, rfl⟩
        · rfl
        · exfalso
          have hform : (a ++ [32, 13, 10] ++ b2) ++ [13, 10] = b4 ++ [13, 10] := by
            rw [hab]
            simp
          have := List.append_cancel_right hform
          exact (bytesFind_none_iff _ _).mp ho a b2 this.symm
      · cases hx : endsWith (b4 ++ [13, 10]) [13, 10, 13, 10] with
        | false => rfl
        | true =>
          exfalso
          obtain ⟨u, hu⟩ := (endsWith_iff _ _).mp hx
          have hform : b4 ++ [13, 10] = (u ++ [13, 10]) ++ [13, 10] := by
            rw [hu]
            simp
          have hb : b4 = u ++ [13, 10] := List.append_cancel_right hform
          rw [(endsWith_iff _ _).mpr ⟨u, hb⟩] at hend
          exact hend rfl

/-- Claim C10, witness: the amended statement applied to the body `"a "`,
whose output `"a \r\n"` carries its only SP-before-`CRLF` occurrence as the
final three bytes. -/
theorem claim_c10_witness :
    canonicalize_body_relaxed [97, 32] = [97] ++ [32, 13, 10] ++ [] ∧ ([] : List Nat) = [] :=
  ⟨by decide, (claim_c10_amended [97, 32]).2.2.1 [97] [] (by decide)⟩

/-! ## Claim theorems: header canonicalization (C7, C9) -/

/-- Claim C7, counterexample: simple header canonicalization does not emit
the header exactly as received.  For the received header `"Subject:hello"`
(name `Subject`, value `hello`, no space after the colon) the function emits
`"Subject: hello\r\n"`, inserting a `": "` separator. -/
theorem claim_c7_counterexample :
    canonicalize_header_simple [83, 117, 98, 106, 101, 99, 116] [104, 101, 108, 108, 111] ≠
      receivedHeader [83, 117, 98, 106, 101, 99, 116] [104, 101, 108, 108, 111] ++ [13, 10] ∧
    canonicalize_header_simple [83, 117, 98, 106, 101, 99, 116] [104, 101, 108, 108, 111] =
      [83, 117, 98, 106, 101, 99, 116] ++ [58, 32] ++ [104, 101, 108, 108, 111] ++ [13, 10] := by
  decide

/-- Claim C7, amended: simple header canonicalization emits the name, a
colon and a single SP, the untransformed value bytes, and a final `CRLF`;
its output coincides with the received header (`name:value`) followed by
`CRLF` exactly when the received value starts with a single SP followed by
the value passed. -/
theorem claim_c7_amended : ∀ key value value' : List Nat,
    canonicalize_header_simple key value = receivedHeader key value' ++ [13, 10] ↔
      value' = 32 :: value := by
  intro key value value'
  simp only [canonicalize_header_simple, receivedHeader, List.append_assoc,
    List.cons_append, List.nil_append]
  constructor
  · intro h
    have h2 := List.append_cancel_left h
    injection h2 with h58 h3
    have h4 : (32 :: value) ++ [13, 10] = value' ++ [13, 10] := by simpa using h3
    exact (List.append_cancel_right h4).symm
  · rintro rfl
    simp

/-- Claim C7, witness: the amended characterization applied to name
`"S"`, value `"h"`, received value `" h"`. -/
theorem claim_c7_witness :
    canonicalize_header_simple [83] [104] = receivedHeader [83] (32 :: [104]) ++ [13, 10] :=
  (claim_c7_amended [83] [104] (32 :: [104])).mpr rfl

/-! Lemmas: the relaxed header value pipeline — code order versus spec order. -/

lemma stripLeadSp_cons_sp (ds : List Nat) : stripLeadSp (32 :: ds) = stripLeadSp ds := by
  rw [stripLeadSp, stripLeadSp, List.dropWhile_cons]
  simp

lemma stripLeadSp_cons_ne (c : Nat) (ds : List Nat) (hc : c ≠ 32) :
    stripLeadSp (c :: ds) = c :: ds := by
  rw [stripLeadSp, List.dropWhile_cons]
  simp [hc]

lemma stripLead_collapse_true : ∀ cs : List Nat,
    stripLeadSp (collapseAux true cs) = collapseAux false (stripLeadSp cs) := by
  intro cs
  induction cs with
  | nil => rfl
  | cons c ds ih =>
    by_cases hc : c = 32
    · subst hc
      have h1 : collapseAux true (32 :: ds) = collapseAux true ds := by
        simp [collapseAux]
      rw [h1, stripLeadSp_cons_sp, ih]
    · have h1 : collapseAux true (c :: ds) = c :: collapseAux false ds := by
        simp [collapseAux, hc]
      rw [h1, stripLeadSp_cons_ne c _ hc, stripLeadSp_cons_ne c _ hc]
      simp [collapseAux, hc]

lemma stripLead_collapse_comm : ∀ cs : List Nat,
    stripLeadSp (collapseAux false cs) = collapseAux false (stripLeadSp cs) := by
  intro cs
  cases cs with
  | nil => rfl
  | cons c ds =>
    by_cases hc : c = 32
    · subst hc
      have h1 : collapseAux false (32 :: ds) = 32 :: collapseAux true ds := by
        simp [collapseAux]
      rw [h1, stripLeadSp_cons_sp, stripLeadSp_cons_sp, stripLead_collapse_true]
    · have h1 : collapseAux false (c :: ds) = c :: collapseAux false ds := by
        simp [collapseAux, hc]
      rw [h1, stripLeadSp_cons_ne c _ hc, stripLeadSp_cons_ne c _ hc]
      simp [collapseAux, hc]

lemma stripTrailSp_no_trailing : ∀ (cs u : List Nat), stripTrailSp cs ≠ u ++ [32] := by
  intro cs
  induction cs with
  | nil =>
    intro u h
    have hl := congrArg List.length h
    rw [show stripTrailSp [] = [] from rfl] at hl
    simp at hl
  | cons c ds ih =>
    intro u
    rw [stripTrailSp]
    by_cases hcond : stripTrailSp ds = [] ∧ c = 32
    · rw [if_pos hcond]
      intro h
      have hl := congrArg List.length h
      simp at hl
    · rw [if_neg hcond]
      intro h
      cases u with
      | nil =>
        rw [List.nil_append] at h
        injection h with hh ht
        exact hcond ⟨ht, hh⟩
      | cons u0 u' =>
        rw [List.cons_append] at h
        injection h with hh ht
        exact ih u' ht

lemma collapseAux_eq_nil_all_sp : ∀ (w : List Nat) p, collapseAux p w = [] →
    ∀ c ∈ w, c = 32 := by
  intro w
  induction w with
  | nil => intro p _ c hc; exact absurd hc (List.not_mem_nil c)
  | cons x ds ih =>
    intro p h c hc
    by_cases hx : x = 32
    · subst hx
      cases p with
      | false =>
        have : collapseAux false (32 :: ds) = 32 :: collapseAux true ds := by
          simp [collapseAux]
        rw [this] at h
        exact absurd h (by simp)
      | true =>
        have heq : collapseAux true (32 :: ds) = collapseAux true ds := by
          simp [collapseAux]
        rw [heq] at h
        rcases List.mem_cons.mp hc with rfl | hc
        · rfl
        · exact ih true h c hc
    · have : collapseAux p (x :: ds) = x :: collapseAux false ds := by
        simp [collapseAux, hx]
      rw [this] at h
      exact absurd h (by simp)

lemma collapse_stripTrail_nonempty (cs : List Nat) (h : stripTrailSp cs ≠ []) :
    collapseAux true (stripTrailSp cs) ≠ [] := by
  intro hnil
  rcases List.eq_nil_or_concat (stripTrailSp cs) with hc | ⟨u, x, hc⟩
  · exact h hc
  · rw [List.concat_eq_append] at hc
    have hx : x = 32 :=
      collapseAux_eq_nil_all_sp _ true (hc ▸ hnil) x (by simp)
    rw [hx] at hc
    exact stripTrailSp_no_trailing cs u hc

lemma collapse_stripTrail_comm : ∀ (cs : List Nat) (p : Bool),
    collapseAux p (stripTrailSp cs) = stripTrailSp (collapseAux p cs) := by
  intro cs
  induction cs with
  | nil => intro p; rfl
  | cons c ds ih =>
    intro p
    by_cases hc : c = 32
    · subst hc
      by_cases ht : stripTrailSp ds = []
      · have hfold : stripTrailSp (32 :: ds) = [] := by
          rw [stripTrailSp, if_pos ⟨ht, rfl⟩]
        rw [hfold]
        have haux : stripTrailSp (collapseAux true ds) = [] := by
          rw [← ih true, ht]
          rfl
        cases p with
        | true =>
          have h1 : collapseAux true (32 :: ds) = collapseAux true ds := by
            simp [collapseAux]
          rw [h1, ← ih true, ht]
        | false =>
          have h1 : collapseAux false (32 :: ds) = 32 :: collapseAux true ds := by
            simp [collapseAux]
          rw [h1]
          have h2 : stripTrailSp (32 :: collapseAux true ds) = [] := by
            rw [stripTrailSp, if_pos ⟨haux, rfl⟩]
          rw [h2]
          rfl
      · have hfold : stripTrailSp (32 :: ds) = 32 :: stripTrailSp ds := by
          rw [stripTrailSp, if_neg (fun hp => ht hp.1)]
        rw [hfold]
        have hne : stripTrailSp (collapseAux true ds) ≠ [] := by
          rw [← ih true]
          exact collapse_stripTrail_nonempty ds ht
        cases p with
        | true =>
          have h1 : collapseAux true (32 :: stripTrailSp ds) =
              collapseAux true (stripTrailSp ds) := by
            simp [collapseAux]
          have h2 : collapseAux true (32 :: ds) = collapseAux true ds := by
            simp [collapseAux]
          rw [h1, h2, ih true]
        | false =>
          have h1 : collapseAux false (32 :: stripTrailSp ds) =
              32 :: collapseAux true (stripTrailSp ds) := by
            simp [collapseAux]
          have h2 : collapseAux false (32 :: ds) = 32 :: collapseAux true ds := by
            simp [collapseAux]
          rw [h1, h2]
          have h3 : stripTrailSp (32 :: collapseAux true ds) =
              32 :: stripTrailSp (collapseAux true ds) := by
            rw [stripTrailSp, if_neg (fun hp => hne hp.1)]
          rw [h3, ih true]
    · have hfold : stripTrailSp (c :: ds) = c :: stripTrailSp ds := by
        rw [stripTrailSp, if_neg (fun hp => hc hp.2)]
      rw [hfold]
      have h1 : collapseAux p (c :: stripTrailSp ds) = c :: collapseAux false (stripTrailSp ds) := by
        simp [collapseAux, hc]
      have h2 : collapseAux p (c :: ds) = c :: collapseAux false ds := by
        simp [collapseAux, hc]
      rw [h1, h2]
      have h3 : stripTrailSp (c :: collapseAux false ds) =
          c :: stripTrailSp (collapseAux false ds) := by
        rw [stripTrailSp, if_neg (fun hp => hc hp.2)]
      rw [h3, ih false]

/-- Claim C9: relaxed header canonicalization lowercases and right-trims the
field name, and transforms the value by TAB→SP replacement, `CRLF` deletion,
SP-run collapsing, and leading/trailing SP stripping — the code's
strip-then-collapse order agrees with the spec's collapse-then-strip order —
emitting `<name>:<value>CRLF` with no space after the colon.  The two
concrete vectors of the spec hold:
`("Subject \t", "\t Kimi \t \r\n No \t\r\n Na Wa\r\n") ↦ "subject:Kimi No Na Wa\r\n"`
and `("SUBJect", " AbC\r\n") ↦ "subject:AbC\r\n"`. -/
theorem claim_c9_relaxed_header :
    (∀ value : List Nat,
      canonicalize_header_value_relaxed value = canonicalize_header_value_relaxed_spec value) ∧
    (∀ key value : List Nat,
      canonicalize_header_relaxed key value =
        trimEndWs (asciiLower key) ++ [58] ++
          canonicalize_header_value_relaxed_spec value ++ [13, 10]) ∧
    canonicalize_header_relaxed [83, 117, 98, 106, 101, 99, 116, 32, 9]
        [9, 32, 75, 105, 109, 105, 32, 9, 32, 13, 10, 32, 78, 111, 32, 9, 13, 10,
         32, 78, 97, 32, 87, 97, 13, 10] =
      [115, 117, 98, 106, 101, 99, 116, 58, 75, 105, 109, 105, 32, 78, 111, 32,
       78, 97, 32, 87, 97, 13, 10] ∧
    canonicalize_header_relaxed [83, 85, 66, 74, 101, 99, 116] [32, 65, 98, 67, 13, 10] =
      [115, 117, 98, 106, 101, 99, 116, 58, 65, 98, 67, 13, 10] := by
  have hval : ∀ value : List Nat,
      canonicalize_header_value_relaxed value = canonicalize_header_value_relaxed_spec value := by
    intro value
    rw [canonicalize_header_value_relaxed, canonicalize_header_value_relaxed_spec]
    rw [← stripLead_collapse_comm, ← collapse_stripTrail_comm]
  refine ⟨hval, ?_, by decide, by decide⟩
  intro key value
  rw [canonicalize_header_relaxed, hval]

/-! ## Claim theorems: signature validation and enumeration (C5, C8, C1, C4) -/

/-- Claim C5: the `i=`/`d=` check of `validate_header` is a naive suffix test
on the whole `i=` value (`user.ends_with(signing_domain)`, flagged `TODO:
naive check` in the source), so a tag-list with `i=foo@notexample.net` and
`d=example.net` validates without `DomainMismatch` even though the domain
part `notexample.net` is neither equal to nor a sub-label of `example.net`. -/
theorem claim_c5_codebug :
    validate_header "raw" (.ok c5tags) = .ok ⟨c5tags, "raw"⟩ ∧
    strEndsWith "foo@notexample.net" "example.net" = true ∧
    iWithinD "foo@notexample.net" "example.net" = false :=
  ⟨rfl, by decide, by decide⟩

/-- Claim C8, counterexample: a `DKIM-Signature` whose `d=` differs from the
from-domain is *not* always skipped silently: when its validation fails
(here `v=3`), the error is recorded before the domain is ever compared, and
the outcome is `Fail(IncompatibleVersion)`, not `Neutral`, even though no
signature matched the from-domain. -/
theorem claim_c8_counterexample :
    verify_email_with_resolver vhReject "other.net" [⟨"raw", .ok badVersionTags⟩] =
      .ok (.fail .IncompatibleVersion "other.net") ∧
    DKIMResult.fail DKIMError.IncompatibleVersion "other.net" ≠
      DKIMResult.neutral "other.net" :=
  ⟨rfl, by decide⟩

lemma verifyResolverGo_all_skip (vh : HeaderVerifier) (fd : String) :
    ∀ headers : List SigHeader,
      (∀ h ∈ headers, ∃ dh, validate_header h.raw h.parsed = .ok dh ∧
        strToLower (get_required_tag dh "d") ≠ strToLower fd) →
      verifyResolverGo vh fd headers none = .neutral fd := by
  intro headers
  induction headers with
  | nil => intro _; rfl
  | cons h rest ih =>
    intro hall
    obtain ⟨dh, hv, hd⟩ := hall h (List.mem_cons_self _ _)
    simp only [verifyResolverGo, hv]
    rw [if_pos hd]
    exact ih (fun h' hm => hall h' (List.mem_cons_of_mem _ hm))

/-- Claim C8, amended: every `DKIM-Signature` that *passes validation* and
whose `d=` (case-folded) differs from the from-domain (case-folded) is
skipped silently; if every signature of the email is such, the outcome is
`Neutral` — in particular an email whose only (valid) signature carries
`d=example.net` verifies to `Neutral` against from-domain `other.net`.
Signatures that fail validation record an error regardless of their `d=`. -/
theorem claim_c8_amended :
    (∀ (vh : HeaderVerifier) (fd : String) (headers : List SigHeader),
      (∀ h ∈ headers, ∃ dh, validate_header h.raw h.parsed = .ok dh ∧
        strToLower (get_required_tag dh "d") ≠ strToLower fd) →
      verify_email_with_resolver vh fd headers = .ok (.neutral fd)) ∧
    verify_email_with_resolver vhReject "other.net" [⟨"raw", .ok goodNetTags⟩] =
      .ok (.neutral "other.net") := by
  constructor
  · intro vh fd headers hall
    rw [verify_email_with_resolver, verifyResolverGo_all_skip vh fd headers hall]
  · rfl

/-- Claim C8, witness: the amended statement applied to a valid
`d=example.net` signature verified against from-domain `foo.org`. -/
theorem claim_c8_witness :
    verify_email_with_resolver vhReject "foo.org" [⟨"raw", .ok goodNetTags⟩] =
      .ok (.neutral "foo.org") :=
  claim_c8_amended.1 vhReject "foo.org" [⟨"raw", .ok goodNetTags⟩] (by
    intro h hm
    rw [List.mem_singleton] at hm
    subst hm
    exact ⟨⟨goodNetTags, "raw"⟩, rfl, by decide⟩)

lemma verifyResolverGo_eq (vh : HeaderVerifier) (fd : String) :
    ∀ (headers : List SigHeader) (acc : Option DKIMError),
      verifyResolverGo vh fd headers acc =
        resolverOutcome fd (headers.map (stepOf vh fd)) acc := by
  intro headers
  induction headers with
  | nil =>
    intro acc
    cases acc with
    | none => rfl
    | some e => rfl
  | cons h rest ih =>
    intro acc
    cases hv : validate_header h.raw h.parsed with
    | error e =>
      have hstep : stepOf vh fd h = .recorded e := by
        simp only [stepOf, hv]
      have hloop : verifyResolverGo vh fd (h :: rest) acc =
          verifyResolverGo vh fd rest (some e) := by
        simp only [verifyResolverGo, hv]
      rw [hloop, ih, List.map_cons, hstep]
      rfl
    | ok dh =>
      by_cases hd : strToLower (get_required_tag dh "d") ≠ strToLower fd
      · have hstep : stepOf vh fd h = .skip := by
          simp only [stepOf, hv]
          rw [if_pos hd]
        have hloop : verifyResolverGo vh fd (h :: rest) acc =
            verifyResolverGo vh fd rest acc := by
          simp only [verifyResolverGo, hv]
          rw [if_pos hd]
        rw [hloop, ih, List.map_cons, hstep]
        rfl
      · cases hvh : vh dh with
        | ok pr =>
          have hstep : stepOf vh fd h =
              .success (get_required_tag dh "d") pr.1 pr.2 := by
            simp only [stepOf, hv]
            rw [if_neg hd, hvh]
          have hloop : verifyResolverGo vh fd (h :: rest) acc =
              .pass (get_required_tag dh "d") pr.1 pr.2 := by
            simp only [verifyResolverGo, hv]
            rw [if_neg hd, hvh]
          rw [hloop, List.map_cons, hstep]
          rfl
        | error e =>
          have hstep : stepOf vh fd h = .recorded e := by
            simp only [stepOf, hv]
            rw [if_neg hd, hvh]
          have hloop : verifyResolverGo vh fd (h :: rest) acc =
              verifyResolverGo vh fd rest (some e) := by
            simp only [verifyResolverGo, hv]
            rw [if_neg hd, hvh]
          rw [hloop, ih, List.map_cons, hstep]
          rfl

/-- Claim C1, counterexample: in `verify_email_with_key` a per-signature
body-hash mismatch aborts the enumeration as a top-level error.  With two
matching signatures, the first failing its body hash and the second
verifying, the function returns `Err(BodyHashDidNotVerify)` instead of
trying the second signature — which, alone, yields `Pass`. -/
theorem claim_c1_counterexample :
    verify_email_with_key oAccept "example.net"
      [⟨"r1", .ok bhBadTags⟩, ⟨"r2", .ok bhGoodTags⟩] false =
      .error .BodyHashDidNotVerify ∧
    verify_email_with_key oAccept "example.net" [⟨"r2", .ok bhGoodTags⟩] false =
      .ok (.pass "example.net" .simple .simple) :=
  ⟨rfl, rfl⟩

/-- Claim C1, amended: the never-abort enumeration policy holds for
`verify_email_with_resolver` — its outcome is `Pass` on the first signature
that verifies, else `Fail` with the last recorded error, else `Neutral`, and
no per-signature failure escapes as a top-level error.  In
`verify_email_with_key`, however, only validation failures and domain
mismatches continue the loop: once a validated, domain-matching signature
reaches the hashing/comparison/crypto steps, any failure there (body-hash
mismatch, bad `b=` base64, unsupported `c=` or `a=`, failed crypto) is
returned as the function's top-level error, aborting the enumeration. -/
theorem claim_c1_amended :
    (∀ (vh : HeaderVerifier) (fd : String) (headers : List SigHeader),
      verify_email_with_resolver vh fd headers =
        .ok (resolverOutcome fd (headers.map (stepOf vh fd)) none)) ∧
    (∀ (o : KeyOracles) (fd : String) (ib : Bool) (h : SigHeader)
        (rest : List SigHeader) (dh : DKIMHeader) (e : DKIMError),
      validate_header h.raw h.parsed = .ok dh →
      strToLower (get_required_tag dh "d") = strToLower fd →
      verifyKeyStep o dh ib = .error e →
      verify_email_with_key o fd (h :: rest) ib = .error e) := by
  constructor
  · intro vh fd headers
    rw [verify_email_with_resolver, verifyResolverGo_eq]
  · intro o fd ib h rest dh e hv hd hstep
    rw [verify_email_with_key]
    simp only [verifyKeyGo, hv]
    rw [if_neg (not_not_intro hd), hstep]

/-- Claim C1, witness: the amended statement's abort branch applied to a
single signature whose body hash mismatches, plus the resolver
characterization at a concrete email. -/
theorem claim_c1_witness :
    (validate_header "r1" (.ok bhBadTags) = .ok ⟨bhBadTags, "r1"⟩ ∧
      strToLower (get_required_tag ⟨bhBadTags, "r1"⟩ "d") = strToLower "example.net" ∧
      verifyKeyStep oAccept ⟨bhBadTags, "r1"⟩ false = .error .BodyHashDidNotVerify) ∧
    verify_email_with_key oAccept "example.net" [⟨"r1", .ok bhBadTags⟩] false =
      .error .BodyHashDidNotVerify :=
  ⟨⟨rfl, rfl, rfl⟩,
    claim_c1_amended.2 oAccept "example.net" false ⟨"r1", .ok bhBadTags⟩ []
      ⟨bhBadTags, "r1"⟩ .BodyHashDidNotVerify rfl rfl rfl⟩

/-- Claim C4, counterexample: the second component of
`canonicalize_signed_email` is not the RFC 6376 canonical body.  For a
`text/plain`, 7bit email with body `"Hi.\r\n"` and a signature with no `c=`
tag (so `simple` body canonicalization is selected), the function returns an
empty body artifact, while the RFC simple canonicalization of the body is
`"Hi.\r\n"` itself. -/
theorem claim_c4_counterexample :
    canonicalize_signed_email hdrCanonEmpty (fun _ => .ok []) emailHi "raw" (.ok c4tags) =
      .ok ([], [], []) ∧
    specSelectedBodyCanon (getTag ⟨c4tags, "raw"⟩ "c") emailHi.raw_body =
      .ok [72, 105, 46, 13, 10] ∧
    (([], [], []) : List Nat × List Nat × List Nat).2.1 ≠ [72, 105, 46, 13, 10] :=
  ⟨by rfl, by rfl, by decide⟩

/-- Claim C4, amended: the second component of `canonicalize_signed_email` is
`get_canonicalized_body`, a MIME-content-type-based extraction that ignores
the signature's `c=` tag entirely; in particular, for a `text/plain` email
whose content-transfer-encoding is not `quoted-printable` it is empty,
whatever the body. -/
theorem claim_c4_amended :
    (∀ hdrCanon b64 email value parsed r,
      canonicalize_signed_email hdrCanon b64 email value parsed = .ok r →
      r.2.1 = get_canonicalized_body email) ∧
    (∀ email : ParsedMail, email.mimetype = "text/plain" →
      get_content_transfer_encoding
        ((email.headers.find? (fun h => h.1 == "Content-Transfer-Encoding")).map
          (fun h => h.2)) ≠ .quotedPrintable →
      get_canonicalized_body email = []) := by
  constructor
  · intro hdrCanon b64 email value parsed r h
    unfold canonicalize_signed_email at h
    simp only [bind, Except.bind] at h
    split at h
    · exact absurd h (by simp)
    · split at h
      · exact absurd h (by simp)
      · split at h
        · exact absurd h (by simp)
        · split at h
          · exact absurd h (by simp)
          · injection h with h'
            rw [← h']
  · intro email hm hcte
    rw [get_canonicalized_body, hm]
    rw [if_neg (by decide), if_pos rfl]
    cases hval : get_content_transfer_encoding
        ((email.headers.find? (fun h => h.1 == "Content-Transfer-Encoding")).map
          (fun h => h.2)) with
    | quotedPrintable => exact absurd hval hcte
    | base64 => rfl
    | sevenBit => rfl
    | eightBit => rfl
    | binary => rfl

/-- Claim C4, witness: the amended statement applied to the concrete email
and signature of the counterexample. -/
theorem claim_c4_witness :
    ([] : List Nat) = get_canonicalized_body emailHi :=
  claim_c4_amended.1 hdrCanonEmpty (fun _ => .ok []) emailHi "raw" (.ok c4tags)
    ([], [], []) rfl

end Cfdkim
